import Mathlib

set_option maxRecDepth 10000

/-!
# Colligo — verification of the manifest/sync engine

Shallow embedding of the Colligo repository (a multi-repository workspace
synchronizer written in Rust) and proofs about it.  Pure logic (the manifest
model, the XML manifest parser/composer, action normalization) is embedded
directly; the external `git` subprocesses are abstracted as environment
records holding each invoked subcommand's outcome, and the code's
orchestration logic over those outcomes is translated faithfully from the
source files `project.rs`, `xml_parser.rs`, `application.rs` and
`version_control.rs`.
-/

namespace Colligo

/-! ## Error type — `application.rs`, `enum ManifestError` -/

inductive ManifestError where
  | FailedToInitialize (e : String)
  | FailedToGetAbsolutePath (e : String)
  | FileDoesNotExist (e : String)
  | FailedToReadManifest (e : String)
  | FailedToParseManifest (e : String)
  | FailedToGenerateDefaultManifest (e : String)
  | FailedToComposeManifest (e : String)
  | FailedToExecuteAction (e : String)
  | FailedToCheckoutRepository (e : String)
  | FailedToGetCommitId (e : String)
  | FailedToDetermineIfRepoIsModified (e : String)
  | FailedToSync (e : String)
  | FailedToSaveFile (e : String)
  | MissingDependency (e : String)
deriving DecidableEq, Repr

/-- `impl Display for ManifestError` in `application.rs`. -/
def ManifestError.display : ManifestError → String
  | .FailedToInitialize e => "Failed to initialize repository: " ++ e
  | .FailedToGetAbsolutePath e => "Failed to get absolute path of " ++ e
  | .FileDoesNotExist e => "File does not exist: " ++ e
  | .FailedToReadManifest e => "Failed to read manifest file: " ++ e
  | .FailedToParseManifest e => "Failed to parse manifest file: " ++ e
  | .FailedToComposeManifest e => "Failed to compose manifest file: " ++ e
  | .FailedToExecuteAction e => "Failed to execute action: " ++ e
  | .FailedToCheckoutRepository e => "Failed to checkout repository: " ++ e
  | .FailedToGetCommitId e => "Failed to get commit id: " ++ e
  | .FailedToDetermineIfRepoIsModified e => "Failed to determine if repo is modified: " ++ e
  | .FailedToSync e => "Failed to sync manifest: " ++ e
  | .FailedToSaveFile e => "Failed to save file: " ++ e
  | .MissingDependency e => "Failed to find dependency: " ++ e
  | .FailedToGenerateDefaultManifest e => "Failed to generate default manifest file: " ++ e

/-! ## Project model — `project.rs` -/

def DEFAULT_REVISION : String := "main"

def DEFAULT_HOST : String := "github.com"

def LINKFILE : String := "linkfile"

def COPYFILE : String := "copyfile"

def COPYDIR : String := "copydir"

def DELETE_PROJECT : String := "delete_project"

inductive ProjectFileAction where
  | LinkFile (src dest : String)
  | CopyFile (src dest : String)
  | CopyDir (src dest : String)
deriving DecidableEq, Repr

inductive ProjectAction where
  | FileAction (a : ProjectFileAction)
  | DeleteProject
deriving DecidableEq, Repr

structure Project where
  uri : String
  name : String
  revision : String
  path : String
  actions : List ProjectAction
deriving DecidableEq, Repr

def Project.new (uri name revision path : String) : Project :=
  { uri := uri, name := name, revision := revision, path := path, actions := [] }

/-- `Project::pin`: a new `Project` with the revision replaced, all else copied. -/
def Project.pin (self : Project) (commit_id : String) : Project :=
  { uri := self.uri, name := self.name, revision := commit_id,
    path := self.path, actions := self.actions }

/-- `Project::is_file_action` (the receiver is unused in the source). -/
def Project.is_file_action (action : String) : Bool :=
  action = LINKFILE || action = COPYFILE || action = COPYDIR

/-- `Project::add_file_action`. -/
def Project.add_file_action (self : Project) (action : String) (src dst : String) : Project :=
  if action = LINKFILE then
    { self with actions := self.actions ++ [.FileAction (.LinkFile src dst)] }
  else if action = COPYFILE then
    { self with actions := self.actions ++ [.FileAction (.CopyFile src dst)] }
  else if action = COPYDIR then
    { self with actions := self.actions ++ [.FileAction (.CopyDir src dst)] }
  else self

/-- `Project::is_delete_project` (the receiver is unused in the source). -/
def Project.is_delete_project (action : String) : Bool :=
  action = DELETE_PROJECT

/-- `Project::add_delete_project`: push a `DeleteProject` unless one is
present (`Vec::contains`). -/
def Project.add_delete_project (self : Project) : Project :=
  if ProjectAction.DeleteProject ∈ self.actions then self
  else { self with actions := self.actions ++ [.DeleteProject] }

/-- The comparator passed to `sort_by` in `Project::sort_actions`. -/
def action_cmp : ProjectAction → ProjectAction → Ordering
  | .DeleteProject, .DeleteProject => .eq
  | .DeleteProject, _ => .gt
  | _, .DeleteProject => .lt
  | _, _ => .eq

/-- `a` may sit before `b` in a list sorted by `action_cmp`. -/
def action_le (a b : ProjectAction) : Bool :=
  action_cmp a b ≠ .gt

/-- Insert `x` in front of the first element it is `le`-below-or-equal to:
the insertion step of a stable insertion sort (an element being inserted
comes from earlier in the list than the sorted tail, so it must land before
elements the comparator calls equal). -/
def stable_insert (x : ProjectAction) : List ProjectAction → List ProjectAction
  | [] => [x]
  | y :: ys => if action_le x y then x :: y :: ys else y :: stable_insert x ys

/-- Stable sort of the action list: Rust's `slice::sort_by` is a stable sort,
realized here as an insertion sort with the comparator of `sort_actions`. -/
def stable_sort_actions : List ProjectAction → List ProjectAction
  | [] => []
  | x :: xs => stable_insert x (stable_sort_actions xs)

/-- `Project::sort_actions`: stable-sort the actions so `DeleteProject` moves
to the end. -/
def Project.sort_actions (self : Project) : Project :=
  { self with actions := stable_sort_actions self.actions }

/-- `Project::get_uri_https`. -/
def Project.get_uri_https (self : Project) : String :=
  "https://" ++ self.uri ++ "/" ++ self.name ++ ".git"

/-- `Project::get_uri_ssh`. -/
def Project.get_uri_ssh (self : Project) : String :=
  "git@" ++ self.uri ++ ":" ++ self.name ++ ".git"

/-- `true` on every action that is not `DeleteProject`. -/
def is_file_entry : ProjectAction → Bool
  | .FileAction _ => true
  | .DeleteProject => false

/-! ## XML document model

The source manipulates manifests through `roxmltree`'s node tree.  The
document is abstracted as its element tree: text, comment and the synthetic
document-root nodes are dropped, which is observationally equivalent here
because every traversal in `xml_parser.rs` either filters to element nodes
(`is_element`) or matches a non-empty tag name, and non-element nodes carry
no attributes. -/

inductive XNode where
  | mk (tag : String) (attrs : List (String × String)) (children : List XNode)

def XNode.tag : XNode → String
  | .mk t _ _ => t

def XNode.attrs : XNode → List (String × String)
  | .mk _ a _ => a

def XNode.children : XNode → List XNode
  | .mk _ _ c => c

/-- `roxmltree`'s `Node::attribute`: the first attribute with the given name. -/
def lookup_attr (name : String) : List (String × String) → Option String
  | [] => none
  | (k, v) :: rest => if k = name then some v else lookup_attr name rest

def XNode.attr (n : XNode) (name : String) : Option String :=
  lookup_attr name n.attrs

mutual
/-- `roxmltree`'s `Node::descendants`: the node itself and all nodes below it,
in document order. -/
def XNode.descendants : XNode → List XNode
  | XNode.mk tag attrs children => XNode.mk tag attrs children :: XNode.descendants_list children
def XNode.descendants_list : List XNode → List XNode
  | [] => []
  | x :: xs => XNode.descendants x ++ XNode.descendants_list xs
end

/-! ## Manifest parsing — `xml_parser.rs` -/

def XML_HEADER : String := "<?xml version=\"1.0\" encoding=\"UTF-8\"?>\n"

def ROOT_BEGIN : String := "<manifest>\n"

def ROOT_END : String := "</manifest>\n"

structure DefaultParameters where
  revision : String
  uri : String

/-- `DefaultParameters::new`: the first `<default>` descendant's `revision`
and `uri` attributes, with the fixed fallback constants. -/
def DefaultParameters.new (doc : XNode) : DefaultParameters :=
  let dflt := doc.descendants.find? (fun n => n.tag = "default")
  { revision := ((dflt.bind (fun n => n.attr "revision")).getD DEFAULT_REVISION),
    uri := ((dflt.bind (fun n => n.attr "uri")).getD DEFAULT_HOST) }

/-- `get_name` in `xml_parser.rs`. -/
def get_name (node : XNode) : Except ManifestError String :=
  match node.attr "name" with
  | some value => .ok value
  | none => .error (.FailedToParseManifest "<project --> name= <-- /> is missing")

/-- `get_path` in `xml_parser.rs`. -/
def get_path (node : XNode) : Except ManifestError String :=
  match node.attr "path" with
  | some value => .ok value
  | none => .error (.FailedToParseManifest "<project --> path= <-- /> is missing")

/-- `get_revision` in `xml_parser.rs`. -/
def get_revision (node : XNode) (dflt : DefaultParameters) : String :=
  (node.attr "revision").getD dflt.revision

/-- `get_uri` in `xml_parser.rs`. -/
def get_uri (node : XNode) (dflt : DefaultParameters) : String :=
  (node.attr "uri").getD dflt.uri

/-- The loop body of `add_actions` over a project node's element children
(`first_element_child` followed by `next_siblings` enumerates every element
child, the first one included). -/
def add_actions_loop (inst : Project) : List XNode → Except ManifestError Project
  | [] => .ok inst
  | action :: rest =>
    let action_name := action.tag
    if Project.is_file_action action_name then
      match action.attr "src", action.attr "dest" with
      | some src, some dest =>
        add_actions_loop (inst.add_file_action action_name src dest) rest
      | some _, none =>
        .error (.FailedToParseManifest "<[linkfile or copyfile] /> is missing src or dest")
      | none, _ =>
        .error (.FailedToParseManifest "<[linkfile or copyfile] /> is missing src or dest")
    else if Project.is_delete_project action.tag then
      add_actions_loop inst.add_delete_project rest
    else
      -- warn!("Warning: <{action_name} /> is not a valid action. Ignored")
      add_actions_loop inst rest

/-- `add_actions` in `xml_parser.rs`: fold the element children into the
project, then normalize with `sort_actions`. -/
def add_actions (inst : Project) (node : XNode) : Except ManifestError Project :=
  match add_actions_loop inst node.children with
  | .error e => .error e
  | .ok inst => .ok inst.sort_actions

/-- One iteration of the project loop in `XmlParser::parse`. -/
def parse_project (dflt : DefaultParameters) (project : XNode) : Except ManifestError Project :=
  match get_name project with
  | .error e => .error e
  | .ok name =>
  match get_path project with
  | .error e => .error e
  | .ok path =>
  let revision := get_revision project dflt
  let uri := get_uri project dflt
  let inst := Project.new uri name revision path
  add_actions inst project

/-- The project loop of `XmlParser::parse`, pushing parsed projects in
document order. -/
def parse_projects (dflt : DefaultParameters) : List XNode → Except ManifestError (List Project)
  | [] => .ok []
  | project :: rest =>
    match parse_project dflt project with
    | .error e => .error e
    | .ok inst =>
      match parse_projects dflt rest with
      | .error e => .error e
      | .ok others => .ok (inst :: others)

/-- The `<project>` descendants of the document, in document order. -/
def project_nodes (doc : XNode) : List XNode :=
  doc.descendants.filter (fun n => n.tag = "project")

/-- `XmlParser::parse`, from the already-read document tree. -/
def XmlParser.parse_doc (doc : XNode) : Except ManifestError (List Project) :=
  parse_projects (DefaultParameters.new doc) (project_nodes doc)

/-- `project_to_xml` in `xml_parser.rs`. -/
def project_to_xml (project : Project) : String :=
  if project.actions.isEmpty then
    "    <project uri=\"" ++ project.uri ++ "\" name=\"" ++ project.name ++
      "\" path=\"" ++ project.path ++ "\" revision=\"" ++ project.revision ++ "\"/>\n"
  else
    let head := "    <project uri=\"" ++ project.uri ++ "\" name=\"" ++ project.name ++
      "\" path=\"" ++ project.path ++ "\" revision=\"" ++ project.revision ++ "\">\n"
    let body := project.actions.foldl (fun xml action =>
      xml ++
        match action with
        | .FileAction (.LinkFile src dest) =>
          "        <linkfile src=\"" ++ src ++ "\" dest=\"" ++ dest ++ "\"/>\n"
        | .FileAction (.CopyFile src dest) =>
          "        <copyfile src=\"" ++ src ++ "\" dest=\"" ++ dest ++ "\"/>\n"
        | .FileAction (.CopyDir src dest) =>
          "        <copydir src=\"" ++ src ++ "\" dest=\"" ++ dest ++ "\"/>\n"
        | .DeleteProject => "        <delete-project/>\n") head
    body ++ "    </project>\n"

/-- `XmlParser::compose`. -/
def XmlParser.compose (projects : List Project) : Except ManifestError String :=
  .ok (XML_HEADER ++ ROOT_BEGIN ++
    projects.foldl (fun xml project => xml ++ project_to_xml project) "" ++
    ROOT_END)

/-! ## Text-level XML reading

`XmlParser::parse` first hands the manifest text to the external XML library
(`roxmltree::Document::parse`), which is not part of this repository.  The
reader below models it on the canonical manifest shape. -/

def xml_ws (c : Char) : Bool :=
  c = ' ' || c = '\n' || c = '\t' || c = '\r'

def xml_name_char (c : Char) : Bool :=
  c.isAlphanum || c = '_' || c = '-' || c = '.' || c = ':'

def take_xml_name (cs : List Char) : String × List Char :=
  (String.mk (cs.takeWhile xml_name_char), cs.dropWhile xml_name_char)

/-- Modelled from the spec: attribute list reading inside the external XML
reader (`roxmltree`, outside this repository): a sequence of
`name="value"` pairs separated by whitespace, stopping at `/` or `>`. -/
def read_xml_attrs : Nat → List Char → Option (List (String × String) × List Char)
  | 0, _ => none
  | fuel + 1, cs0 =>
    let cs := cs0.dropWhile xml_ws
    match cs with
    | '/' :: _ => some ([], cs)
    | '>' :: _ => some ([], cs)
    | c :: _ =>
      if xml_name_char c then
        let (nm, cs1) := take_xml_name cs
        match cs1 with
        | '=' :: '"' :: cs2 =>
          let v := cs2.takeWhile (fun ch => ch ≠ '"')
          match cs2.dropWhile (fun ch => ch ≠ '"') with
          | '"' :: cs3 => do
            let (rest, cs4) ← read_xml_attrs fuel cs3
            some ((nm, String.mk v) :: rest, cs4)
          | _ => none
        | _ => none
      else none
    | [] => none

/-- Modelled from the spec: element-sequence reading inside the external XML
reader (`roxmltree`, outside this repository), restricted to the canonical
manifest serialization the repository itself emits: nested elements with
double-quoted attributes, self-closing tags and inter-element whitespace;
no text content, entities or comments. -/
def read_xml_nodes : Nat → List Char → Option (List XNode × List Char)
  | 0, _ => none
  | fuel + 1, cs0 =>
    let cs := cs0.dropWhile xml_ws
    match cs with
    | '<' :: '/' :: _ => some ([], cs)
    | '<' :: cs1 =>
      let (tag, cs2) := take_xml_name cs1
      if tag = "" then none
      else do
        let (attrs, cs3) ← read_xml_attrs fuel cs2
        match cs3 with
        | '/' :: '>' :: cs4 => do
          let (siblings, cs5) ← read_xml_nodes fuel cs4
          some (XNode.mk tag attrs [] :: siblings, cs5)
        | '>' :: cs4 => do
          let (children, cs5) ← read_xml_nodes fuel cs4
          match cs5 with
          | '<' :: '/' :: cs6 =>
            let (ctag, cs7) := take_xml_name cs6
            if ctag = tag then
              match cs7.dropWhile xml_ws with
              | '>' :: cs8 => do
                let (siblings, cs9) ← read_xml_nodes fuel cs8
                some (XNode.mk tag attrs children :: siblings, cs9)
              | _ => none
            else none
          | _ => none
        | _ => none
    | [] => some ([], [])
    | _ => none

/-- Skip the remainder of an `<?xml ... ?>` declaration. -/
def skip_xml_decl : Nat → List Char → Option (List Char)
  | 0, _ => none
  | fuel + 1, cs =>
    match cs with
    | '?' :: '>' :: rest => some rest
    | _ :: rest => skip_xml_decl fuel rest
    | [] => none

/-- Modelled from the spec: `roxmltree::Document::parse` (outside this
repository) on a canonical manifest document — the declaration header
followed by exactly one root element. -/
def xml_read (text : String) : Option XNode := do
  let cs := text.data.dropWhile xml_ws
  let cs ← match cs with
    | '<' :: '?' :: rest => skip_xml_decl (rest.length + 1) rest
    | _ => some cs
  let (nodes, rest) ← read_xml_nodes (cs.length + 2) cs
  match nodes, rest.dropWhile xml_ws with
  | [root], [] => some root
  | _, _ => none

/-- `parse_xml_file` in `xml_parser.rs`: any reader failure becomes the one
`FailedToParseManifest "Unable to parse XML"` error. -/
def parse_xml_file (file : String) : Except ManifestError XNode :=
  match xml_read file with
  | some doc => .ok doc
  | none => .error (.FailedToParseManifest "Unable to parse XML")

/-- `XmlParser::parse` from the manifest text. -/
def XmlParser.parse (file : String) : Except ManifestError (List Project) :=
  match parse_xml_file file with
  | .error e => .error e
  | .ok doc => XmlParser.parse_doc doc

/-! ## Subprocess abstraction

Everything the program learns from an external `git` process is its spawn
outcome, exit status and captured output; each call site is abstracted as a
field of an environment record holding that outcome. -/

/-- Spawn outcome of one subprocess: `Except.error` is a failure to execute
it at all; `ProcessOutput` carries the exit status and standard output. -/
structure ProcessOutput where
  success : Bool
  stdout : String
deriving DecidableEq, Repr

instance {ε α : Type} [DecidableEq ε] [DecidableEq α] : DecidableEq (Except ε α) :=
  fun a b =>
    match a, b with
    | .ok x, .ok y =>
      if h : x = y then .isTrue (by rw [h]) else .isFalse (by intro hh; cases hh; exact h rfl)
    | .error x, .error y =>
      if h : x = y then .isTrue (by rw [h]) else .isFalse (by intro hh; cases hh; exact h rfl)
    | .ok _, .error _ => .isFalse (by intro hh; cases hh)
    | .error _, .ok _ => .isFalse (by intro hh; cases hh)

/-- Rust's `str::contains`: case-sensitive substring test. -/
def chars_have_sub (pat : List Char) : List Char → Bool
  | [] => pat.isEmpty
  | c :: rest => pat.isPrefixOf (c :: rest) || chars_have_sub pat rest

/-- `haystack.contains(needle)` on strings. -/
def str_contains (haystack needle : String) : Bool :=
  chars_have_sub needle.data haystack.data

/-! ## Progress monitor — `process_command` in `version_control.rs`

The loop interleaves chunk reads, timer ticks and the child's exit; its
observable data are the ordered chunks pushed into `stderr_capture` while the
child ran, the lines drained after a failed exit, and the exit outcome. -/

/-- The marker test of `process_command`: a captured line mentioning `fatal`
or `error` (case-sensitive substring match). -/
def contains_marker (line : String) : Bool :=
  str_contains line "fatal" || str_contains line "error"

/-- `process_command`, given the chunks captured while the child ran, the
lines drained from the buffered stream after a non-successful exit, and the
`child.wait()` outcome (`Except.error` when waiting itself failed).  On a
failed exit the source locates the first captured entry containing a marker
and concatenates everything from it onward. -/
def process_command (exit_outcome : Except String Bool)
    (chunks drained : List String) : Except String Unit :=
  match exit_outcome with
  | .ok exit_success =>
    if exit_success then .ok ()
    else
      let stderr_capture := chunks ++ drained
      match stderr_capture.findIdx? contains_marker with
      | some start =>
        .error ((stderr_capture.drop start).foldl (fun acc line => acc ++ line) "")
      | none => .error "Failed to capture git error message"
  | .error e => .error e

/-! ## Version-control provider — `version_control.rs` -/

/-- `DwlMode` in `application.rs`. -/
inductive DwlMode where
  | HTTPS
  | SSH
deriving DecidableEq, Repr

/-- Outcomes of the subprocesses one `checkout` call may run, in call order:
the shallow probe (`git rev-parse --is-shallow-repository`), the fetch and
checkout commands monitored through `process_command` (keyed by the argument
list the code builds), the porcelain status read of the dirty guard, the
plain `git status` read of `is_branch`, and the fast-forward merge. -/
structure GitEnv where
  shallow_probe : Except String ProcessOutput
  fetch : List String → Except String Unit
  checkout_cmd : List String → Except String Unit
  status_porcelain : Except String String
  branch_status : Except String String
  merge : Except String Unit

/-- `get_fetch_args` in `version_control.rs`. -/
def get_fetch_args (env : GitEnv) (lightweight : Bool) (revision : String) :
    Except ManifestError (List String) :=
  match env.shallow_probe with
  | .error e => .error (.FailedToCheckoutRepository e)
  | .ok out =>
    if !out.success then
      .error (.FailedToCheckoutRepository "git rev-parse failed")
    else
      let is_shallow := str_contains out.stdout "true"
      if lightweight then
        .ok ["fetch", "--progress", "--tags", "--prune", "--depth", "1", "origin", revision]
      else if is_shallow then
        .ok ["fetch", "--progress", "--tags", "--prune", "--unshallow", "origin"]
      else
        .ok ["fetch", "--progress", "--tags", "--prune", "origin"]

/-- The checkout-command argument list built inside `GitVersionControl::checkout`. -/
def git_checkout_args (force lightweight : Bool) (revision : String) : List String :=
  if force then ["checkout", revision, "--progress", "--force"]
  else if lightweight then ["checkout", "FETCH_HEAD", "--progress"]
  else ["checkout", revision, "--progress"]

/-- `is_branch` in `version_control.rs`: the plain `git status` output
mentions `On branch`; any spawn failure counts as not-a-branch. -/
def is_branch (env : GitEnv) : Bool :=
  match env.branch_status with
  | .ok message => str_contains message "On branch"
  | .error _ => false

/-- `GitVersionControl::checkout`: fetch (args from the shallow probe), then
the checkout command, then the dirty guard over the porcelain status, then an
optional fast-forward merge when the checked-out revision is a branch. -/
def GitVersionControl.checkout (env : GitEnv) (project : Project)
    (force lightweight : Bool) : Except ManifestError Unit :=
  match get_fetch_args env lightweight project.revision with
  | .error e => .error e
  | .ok args =>
  match env.fetch args with
  | .error e => .error (.FailedToCheckoutRepository (project.path ++ "\n" ++ e ++ "\n"))
  | .ok _ =>
  match env.checkout_cmd (git_checkout_args force lightweight project.revision) with
  | .error e => .error (.FailedToCheckoutRepository (project.path ++ "\n" ++ e ++ "\n"))
  | .ok _ =>
  match env.status_porcelain with
  | .error e =>
    .error (.FailedToCheckoutRepository
      (project.path ++ ". Failed to check repository status: \n" ++ e ++ "\n"))
  | .ok message =>
    if message ≠ "" then
      .error (.FailedToCheckoutRepository
        (project.path ++ ", repository is dirty, please commit or stash your changes"))
    else if is_branch env then
      match env.merge with
      | .error e => .error (.FailedToCheckoutRepository (project.path ++ "\n" ++ e ++ "\n"))
      | .ok _ => .ok ()
    else .ok ()

/-- `GitVersionControl::get_commit_id`: the `git rev-parse HEAD` outcome is
an error only when the process could not run; otherwise its standard output,
stripped of every newline and carriage return, is returned as-is — the exit
status is never consulted. -/
def GitVersionControl.get_commit_id (output : Except String ProcessOutput)
    (project : Project) : Except ManifestError String :=
  match output with
  | .ok output =>
    .ok (String.mk (output.stdout.data.filter (fun c => !(c = '\n' || c = '\r'))))
  | .error e => .error (.FailedToGetCommitId (project.path ++ "\n" ++ e ++ "\n"))

/-! ## Initialization — `GitVersionControl::init` -/

/-- One subprocess/filesystem operation `init` can perform on the project's
destination directory, recorded in execution order. -/
inductive GitCall where
  | create_dir
  | git_init
  | remote_get_url
  | remote_set_url (url : String)
  | remote_add (url : String)
deriving DecidableEq, Repr

/-- Outcomes of the operations `init` may run.  `dest_nonempty` records
whether the destination directory holds any entries; the code never consults
it (only `path.exists()` is checked, and only to create the directory). -/
structure InitEnv where
  path_exists : Bool
  dest_nonempty : Bool
  create_dir : Except String Unit
  git_init : Except String Bool
  get_url : Except String Bool
  set_url : Except String Bool
  add_url : Except String Bool

/-- `init_repository` in `version_control.rs`, with the trace of performed
operations: create the directory when absent, then always run
`git init --quiet`. -/
def init_repository (env : InitEnv) : Except ManifestError Unit × List GitCall :=
  if !env.path_exists then
    match env.create_dir with
    | .error e => (.error (.FailedToInitialize e), [.create_dir])
    | .ok _ =>
      match env.git_init with
      | .error e => (.error (.FailedToInitialize e), [.create_dir, .git_init])
      | .ok ok =>
        if ok then (.ok (), [.create_dir, .git_init])
        else (.error (.FailedToInitialize "git init failed"), [.create_dir, .git_init])
  else
    match env.git_init with
    | .error e => (.error (.FailedToInitialize e), [.git_init])
    | .ok ok =>
      if ok then (.ok (), [.git_init])
      else (.error (.FailedToInitialize "git init failed"), [.git_init])

/-- `init_origin` in `version_control.rs`, with the trace: query whether
`origin` exists, then update it (`remote set-url`) or add it (`remote add`). -/
def init_origin (env : InitEnv) (url : String) : Except ManifestError Unit × List GitCall :=
  match env.get_url with
  | .error e => (.error (.FailedToInitialize e), [.remote_get_url])
  | .ok origin_exists =>
    if origin_exists then
      match env.set_url with
      | .error e => (.error (.FailedToInitialize e), [.remote_get_url, .remote_set_url url])
      | .ok ok =>
        if ok then (.ok (), [.remote_get_url, .remote_set_url url])
        else (.error (.FailedToInitialize "git remote set-url failed"),
          [.remote_get_url, .remote_set_url url])
    else
      match env.add_url with
      | .error e => (.error (.FailedToInitialize e), [.remote_get_url, .remote_add url])
      | .ok ok =>
        if ok then (.ok (), [.remote_get_url, .remote_add url])
        else (.error (.FailedToInitialize "git remote add failed"),
          [.remote_get_url, .remote_add url])

/-- `GitVersionControl::init`: resolve the remote URL from the mode, run
`init_repository`, then `init_origin`.  The second component is the trace of
operations performed on the destination directory. -/
def GitVersionControl.init (env : InitEnv) (project : Project) (mode : DwlMode) :
    Except ManifestError Unit × List GitCall :=
  let url := match mode with
    | .HTTPS => project.get_uri_https
    | .SSH => project.get_uri_ssh
  match init_repository env with
  | (.error e, trace) => (.error e, trace)
  | (.ok _, trace) =>
    let (r, trace2) := init_origin env url
    (r, trace ++ trace2)

/-! ## Sync orchestrator — `ManifestInstance::sync` in `application.rs`

Each project's worker runs initialize → checkout → post-checkout actions,
short-circuiting inside the project, and sends each attempted stage's result
through the channel; the orchestrator keeps the failures' display strings.
The channel's delivery order across concurrently failing projects is not
fixed by the code; the model collects results in project order, one valid
interleaving. -/

/-- Per-stage outcomes for each project (indexed by position in the
manifest), as functions of the options that reach the stage. -/
structure SyncEnv where
  init : DwlMode → Nat → Except ManifestError Unit
  checkout : Bool → Bool → Nat → Except ManifestError Unit
  execute_actions : Nat → Except ManifestError Unit

/-- The results project `i`'s worker sends through the channel: the
initialize result always, then the checkout result if initialize succeeded,
then the actions result if checkout succeeded. -/
def project_results (env : SyncEnv) (mode : DwlMode) (lightweight force : Bool)
    (i : Nat) : List (Except ManifestError Unit) :=
  match env.init mode i with
  | .error e => [.error e]
  | .ok _ =>
    match env.checkout force lightweight i with
    | .error e => [.ok (), .error e]
    | .ok _ => [.ok (), .ok (), env.execute_actions i]

/-- The orchestrator's receive loop body: a failure's display string is kept,
a success is dropped. -/
def result_error : Except ManifestError Unit → Option String
  | .error e => some e.display
  | .ok _ => none

/-- `ManifestInstance::sync` for a manifest of `n` projects: drain every
worker's results, keep the failures' display strings, and aggregate.  The
`quiet` flag only switches progress-bar rendering on or off and reaches no
result. -/
def ManifestInstance.sync (env : SyncEnv) (n : Nat) (mode : DwlMode)
    (lightweight quiet force : Bool) : Except ManifestError Unit :=
  let sent := (List.range n).flatMap (project_results env mode lightweight force)
  let errors := sent.filterMap result_error
  if errors.isEmpty then .ok ()
  else .error (.FailedToSync (errors.foldl (fun acc msg => acc ++ msg ++ "\n") "\n\n"))

/-- The failure message project `i` contributes to the aggregate, when its
pipeline fails: the display string of its first failing stage. -/
def project_failure (env : SyncEnv) (mode : DwlMode) (lightweight force : Bool)
    (i : Nat) : Option String :=
  match env.init mode i with
  | .error e => some e.display
  | .ok _ =>
    match env.checkout force lightweight i with
    | .error e => some e.display
    | .ok _ =>
      match env.execute_actions i with
      | .error e => some e.display
      | .ok _ => none

/-- The failure messages of all failed projects, in manifest order. -/
def sync_failures (env : SyncEnv) (mode : DwlMode) (lightweight force : Bool)
    (n : Nat) : List String :=
  (List.range n).filterMap (project_failure env mode lightweight force)

/-! ## Pin engine — `ManifestInstance::pin` -/

/-- `ManifestInstance` in `application.rs` (the filename kept as a plain
string). -/
structure ManifestInstance where
  filename : String
  file : String
  projects : List Project
deriving DecidableEq, Repr

/-- The project loop of `ManifestInstance::pin`: query the current commit of
every project in original order, short-circuiting on the first failure, and
pin each project to the returned commit id. -/
def pin_loop (get_commit : Project → Except ManifestError String) :
    List Project → Except ManifestError (List Project)
  | [] => .ok []
  | project :: rest =>
    match get_commit project with
    | .error e => .error e
    | .ok commit_id =>
      match pin_loop get_commit rest with
      | .error e => .error e
      | .ok others => .ok (project.pin commit_id :: others)

/-- `ManifestInstance::pin`: pin every project, compose the new manifest
text, and return a new instance; the receiver is read only. -/
def ManifestInstance.pin (get_commit : Project → Except ManifestError String)
    (self : ManifestInstance) : Except ManifestError ManifestInstance :=
  match pin_loop get_commit self.projects with
  | .error e => .error e
  | .ok projects =>
    match XmlParser.compose projects with
    | .error e => .error e
    | .ok file => .ok { filename := self.filename, file := file, projects := projects }

/-! ## Working-copy model for the dirty guard -/

/-- Modelled from the spec: the observable working-copy state of one project
under the external `git` tool — tracked-file contents and the set of tracked
files carrying uncommitted modifications (untracked files play no part in
the porcelain status the code reads). -/
structure WorkingCopy where
  tracked : List (String × String)
  modified : List (String × String)
deriving DecidableEq, Repr

/-- One ` M <path>` porcelain line per modified tracked file. -/
def porcelain_lines : List (String × String) → String
  | [] => ""
  | m :: ms => " M " ++ m.1 ++ "\n" ++ porcelain_lines ms

/-- Modelled from the spec: the output of
`git status --porcelain --untracked-files=no` — one line per modified
tracked file, empty exactly when no tracked file is modified. -/
def status_porcelain_output (wc : WorkingCopy) : String :=
  porcelain_lines wc.modified

/-- Modelled from the spec: the effect of `git checkout <rev> --force` on the
working copy — local modifications are discarded and every tracked file is
restored to the fetched revision's content. -/
def git_force_checkout (rev_content : List (String × String)) (wc : WorkingCopy) :
    WorkingCopy :=
  { tracked := rev_content, modified := [] }

/-- The remote URL `GitVersionControl::init` computes from the download mode. -/
def init_url (project : Project) (mode : DwlMode) : String :=
  match mode with
  | .HTTPS => project.get_uri_https
  | .SSH => project.get_uri_ssh

/-! ## Concrete inputs used by witnesses and counterexamples -/

def c4_project : Project := Project.new "github.com" "demo/repo" "main" "demo"

/-- A run in which the destination directory already exists, is non-empty,
and every subcommand succeeds (`origin` already configured). -/
def c4_env : InitEnv :=
  { path_exists := true, dest_nonempty := true, create_dir := .ok (),
    git_init := .ok true, get_url := .ok true, set_url := .ok true, add_url := .ok true }

/-- The action `add_file_action` appends for a recognized file-action tag. -/
def file_action_of (tag src dst : String) : ProjectAction :=
  if tag = LINKFILE then .FileAction (.LinkFile src dst)
  else if tag = COPYFILE then .FileAction (.CopyFile src dst)
  else .FileAction (.CopyDir src dst)

/-- The file actions a project element declares, in document order: one entry
per recognized file-action child carrying both `src` and `dest`. -/
def declared_file_actions (children : List XNode) : List ProjectAction :=
  children.filterMap (fun a =>
    if Project.is_file_action a.tag then
      match a.attr "src", a.attr "dest" with
      | some src, some dest => some (file_action_of a.tag src dest)
      | _, _ => none
    else none)

/-- Whether the project element declares a `delete_project` action. -/
def declares_delete (children : List XNode) : Bool :=
  children.any (fun a => Project.is_delete_project a.tag)

def c2_project : Project := Project.new "github.com" "demo/repo" "main" "demo"

/-- A working copy with one uncommitted modification to a tracked file. -/
def c2_wc : WorkingCopy :=
  { tracked := [("f.txt", "old")], modified := [("f.txt", "edited")] }

def c2_rev : List (String × String) := [("f.txt", "new")]

/-- The `force = false` run over the dirty working copy: every subprocess
runs, and the dirty-guard status shows the surviving modifications. -/
def c2_env0 : GitEnv :=
  { shallow_probe := .ok ⟨true, "false\n"⟩
    fetch := fun _ => .ok ()
    checkout_cmd := fun _ => .ok ()
    status_porcelain := .ok (status_porcelain_output c2_wc)
    branch_status := .ok "On branch main"
    merge := .ok () }

/-- The `force = true` run: `git checkout --force` has discarded the local
modifications, so the dirty-guard status is empty. -/
def c2_env1 : GitEnv :=
  { shallow_probe := .ok ⟨true, "false\n"⟩
    fetch := fun _ => .ok ()
    checkout_cmd := fun _ => .ok ()
    status_porcelain := .ok (status_porcelain_output (git_force_checkout c2_rev c2_wc))
    branch_status := .ok "On branch main"
    merge := .ok () }

def c6_inst : Project := Project.new "gitlab.com" "grp/app" "main" "app"

/-- A project element declaring a `delete_project` before and between file
actions, a duplicate `delete_project`, and an unknown action element. -/
def c6_node : XNode := .mk "project"
  [("name", "grp/app"), ("path", "app")]
  [ .mk "delete_project" [] [],
    .mk "linkfile" [("src", "a"), ("dest", "b")] [],
    .mk "delete_project" [] [],
    .mk "copyfile" [("src", "c"), ("dest", "d")] [],
    .mk "unknown" [] [] ]

/-- What `add_actions` produces on `c6_node`: file actions in declared
order, one `DeleteProject` at the end. -/
def c6_res : Project :=
  { uri := "gitlab.com", name := "grp/app", revision := "main", path := "app",
    actions := [.FileAction (.LinkFile "a" "b"), .FileAction (.CopyFile "c" "d"),
      .DeleteProject] }

/-- A manifest document whose `<default>` supplies `revision` and `uri` and
whose single project omits both. -/
def c8_doc : XNode := .mk "manifest" []
  [ .mk "default" [("revision", "dev"), ("uri", "gitlab.com")] [],
    .mk "project" [("name", "grp/app"), ("path", "app")] [] ]

/-- A manifest document with no `<default>` element and a project omitting
`revision` and `uri`. -/
def c8_doc_bare : XNode := .mk "manifest" []
  [ .mk "project" [("name", "grp/app"), ("path", "app")] [] ]

def c7_p1 : Project :=
  { uri := "github.com", name := "a/b", revision := "main", path := "b",
    actions := [.FileAction (.LinkFile "x" "y")] }

def c7_p2 : Project :=
  { uri := "gitlab.com", name := "c/d", revision := "v1.0", path := "d",
    actions := [.DeleteProject] }

def c7_manifest : ManifestInstance :=
  { filename := "manifest.xml", file := "", projects := [c7_p1, c7_p2] }

/-- A revision query returning the same commit id for every project. -/
def c7_get_commit : Project → Except ManifestError String :=
  fun _ => .ok "8f3c2d1"

/-- The canonical serialization (byte-for-byte the composer's output format)
of one project carrying a delete action. -/
def c5_input : String :=
  XML_HEADER ++ "<manifest>\n" ++
    "    <project uri=\"github.com\" name=\"demo/repo\" path=\"demo\" revision=\"main\">\n" ++
    "        <delete-project/>\n" ++
    "    </project>\n" ++
  "</manifest>\n"

/-- The project whose composition is `c5_input`. -/
def c5_source_project : Project :=
  { uri := "github.com", name := "demo/repo", revision := "main", path := "demo",
    actions := [.DeleteProject] }

/-- What `parse` actually returns on `c5_input`: the `<delete-project/>`
element is not a recognized action tag (`delete_project` is), so it is
dropped. -/
def c5_parsed : Project :=
  { uri := "github.com", name := "demo/repo", revision := "main", path := "demo",
    actions := [] }

/-- The re-composition of the parsed document: the delete action is gone. -/
def c5_recomposed : String :=
  XML_HEADER ++ "<manifest>\n" ++
    "    <project uri=\"github.com\" name=\"demo/repo\" path=\"demo\" revision=\"main\"/>\n" ++
  "</manifest>\n"

/-- The parse of `c8_doc`'s project: both defaults propagated. -/
def c8_parsed : Project :=
  { uri := "gitlab.com", name := "grp/app", revision := "dev", path := "app",
    actions := [] }

def c7_p1_pinned : Project :=
  { uri := "github.com", name := "a/b", revision := "8f3c2d1", path := "b",
    actions := [.FileAction (.LinkFile "x" "y")] }

def c7_p2_pinned : Project :=
  { uri := "gitlab.com", name := "c/d", revision := "8f3c2d1", path := "d",
    actions := [.DeleteProject] }

/-- The manifest `pin` produces from `c7_manifest` under `c7_get_commit`. -/
def c7_pinned : ManifestInstance :=
  { filename := "manifest.xml"
    file := XML_HEADER ++ "<manifest>\n" ++
      "    <project uri=\"github.com\" name=\"a/b\" path=\"b\" revision=\"8f3c2d1\">\n" ++
      "        <linkfile src=\"x\" dest=\"y\"/>\n" ++
      "    </project>\n" ++
      "    <project uri=\"gitlab.com\" name=\"c/d\" path=\"d\" revision=\"8f3c2d1\">\n" ++
      "        <delete-project/>\n" ++
      "    </project>\n" ++
      "</manifest>\n"
    projects := [c7_p1_pinned, c7_p2_pinned] }

/-! # Theorems -/

/-! ## The sorted shape of an action list -/

theorem stable_insert_file (x : ProjectAction) (hx : is_file_entry x = true)
    (l : List ProjectAction) : stable_insert x l = x :: l := by
  cases l with
  | nil => rfl
  | cons y ys =>
    have : action_le x y = true := by
      cases x with
      | DeleteProject => simp [is_file_entry] at hx
      | FileAction a => cases y <;> simp [action_le, action_cmp]
    simp [stable_insert, this]

theorem stable_insert_delete (F D : List ProjectAction)
    (hF : ∀ a ∈ F, is_file_entry a = true)
    (hD : ∀ a ∈ D, is_file_entry a = false) :
    stable_insert .DeleteProject (F ++ D) = F ++ .DeleteProject :: D := by
  induction F with
  | nil =>
    cases D with
    | nil => rfl
    | cons d ds =>
      have hd : is_file_entry d = false := hD d (by simp)
      have : action_le .DeleteProject d = true := by
        cases d <;> simp [is_file_entry, action_le, action_cmp] at hd ⊢
      simp [stable_insert, this]
  | cons y ys ih =>
    have hy : is_file_entry y = true := hF y (by simp)
    have : action_le .DeleteProject y = false := by
      cases y <;> simp [is_file_entry, action_le, action_cmp] at hy ⊢
    have h2 := ih fun a ha => hF a (by simp [ha])
    simp [stable_insert, this]
    simpa using h2

/-- The stable sort with the `sort_actions` comparator keeps all file actions
in their original order and moves every `DeleteProject` after them. -/
theorem stable_sort_actions_eq (l : List ProjectAction) :
    stable_sort_actions l =
      l.filter is_file_entry ++ l.filter (fun a => !is_file_entry a) := by
  induction l with
  | nil => rfl
  | cons x xs ih =>
    cases hx : is_file_entry x with
    | true =>
      simp only [stable_sort_actions, ih, List.filter_cons, hx]
      have : stable_insert x (xs.filter is_file_entry ++
          xs.filter (fun a => !is_file_entry a)) =
          x :: (xs.filter is_file_entry ++ xs.filter (fun a => !is_file_entry a)) :=
        stable_insert_file x hx _
      simp [this]
    | false =>
      have hxd : x = .DeleteProject := by
        cases x with
        | FileAction a => simp [is_file_entry] at hx
        | DeleteProject => rfl
      subst hxd
      simp only [stable_sort_actions, ih, List.filter_cons, hx]
      rw [stable_insert_delete (xs.filter is_file_entry)
        (xs.filter (fun a => !is_file_entry a))
        (fun a ha => List.of_mem_filter ha)
        (fun a ha => by
          have := List.of_mem_filter ha
          simpa using this)]
      simp

/-! ## C2 — the dirty-working-copy guard of `checkout` -/

theorem porcelain_lines_ne_empty (l : List (String × String)) (h : l ≠ []) :
    porcelain_lines l ≠ "" := by
  cases l with
  | nil => exact absurd rfl h
  | cons m ms =>
    intro hcontra
    have hlen : (porcelain_lines (m :: ms)).length = 0 := by rw [hcontra]; rfl
    rw [porcelain_lines] at hlen
    simp [String.length_append] at hlen
    exact absurd hlen.1.2 (by decide)

theorem get_fetch_args_ok (env : GitEnv) (lightweight : Bool) (revision : String)
    (s : ProcessOutput) (hp : env.shallow_probe = .ok s) (hs : s.success = true) :
    ∃ args, get_fetch_args env lightweight revision = .ok args := by
  unfold get_fetch_args
  rw [hp]
  simp only [hs, Bool.not_true, Bool.false_eq_true, if_false]
  split
  · exact ⟨_, rfl⟩
  · split
    · exact ⟨_, rfl⟩
    · exact ⟨_, rfl⟩

/-- C2: with the fetch and checkout subcommands succeeding, a working copy
holding uncommitted modifications to tracked files makes
`checkout(force = false)` fail with the dirty-working-copy
"please commit or stash" error, while `checkout(force = true)` — after
`git checkout --force` discards the modifications — succeeds, the tracked
files then carrying the fetched revision's content. -/
theorem c2_checkout_dirty_guard (env0 env1 : GitEnv) (project : Project)
    (wc : WorkingCopy) (rev_content : List (String × String)) (lightweight : Bool)
    (s0 s1 : ProcessOutput)
    (hp0 : env0.shallow_probe = .ok s0) (hs0 : s0.success = true)
    (hp1 : env1.shallow_probe = .ok s1) (hs1 : s1.success = true)
    (hf0 : ∀ args, env0.fetch args = .ok ())
    (hf1 : ∀ args, env1.fetch args = .ok ())
    (hc0 : ∀ args, env0.checkout_cmd args = .ok ())
    (hc1 : ∀ args, env1.checkout_cmd args = .ok ())
    (hdirty : wc.modified ≠ [])
    (hst0 : env0.status_porcelain = .ok (status_porcelain_output wc))
    (hst1 : env1.status_porcelain =
      .ok (status_porcelain_output (git_force_checkout rev_content wc)))
    (hm1 : env1.merge = .ok ()) :
    GitVersionControl.checkout env0 project false lightweight =
      .error (.FailedToCheckoutRepository
        (project.path ++ ", repository is dirty, please commit or stash your changes")) ∧
    GitVersionControl.checkout env1 project true lightweight = .ok () ∧
    (git_force_checkout rev_content wc).tracked = rev_content ∧
    (git_force_checkout rev_content wc).modified = [] := by
  obtain ⟨args0, hargs0⟩ := get_fetch_args_ok env0 lightweight project.revision s0 hp0 hs0
  obtain ⟨args1, hargs1⟩ := get_fetch_args_ok env1 lightweight project.revision s1 hp1 hs1
  have hne : status_porcelain_output wc ≠ "" :=
    porcelain_lines_ne_empty wc.modified hdirty
  refine ⟨?_, ?_, rfl, rfl⟩
  · simp only [GitVersionControl.checkout, hargs0, hf0, hc0, hst0]
    simp [hne]
  · simp only [GitVersionControl.checkout, hargs1, hf1, hc1, hst1,
      status_porcelain_output, git_force_checkout, porcelain_lines]
    cases hib : is_branch env1 <;> simp [hib, hm1]

/-- C2 witness: the guard evaluated on a concrete dirty working copy and the
two concrete subprocess environments. -/
theorem c2_checkout_dirty_guard_witness :
    GitVersionControl.checkout c2_env0 c2_project false false =
      .error (.FailedToCheckoutRepository
        ("demo" ++ ", repository is dirty, please commit or stash your changes")) ∧
    GitVersionControl.checkout c2_env1 c2_project true false = .ok () ∧
    (git_force_checkout c2_rev c2_wc).tracked = c2_rev ∧
    (git_force_checkout c2_rev c2_wc).modified = [] := by
  have h := c2_checkout_dirty_guard c2_env0 c2_env1 c2_project c2_wc c2_rev false
    ⟨true, "false\n"⟩ ⟨true, "false\n"⟩ rfl rfl rfl rfl
    (fun _ => rfl) (fun _ => rfl) (fun _ => rfl) (fun _ => rfl)
    (by decide) rfl rfl rfl
  simpa [c2_project, Project.new] using h

/-! ## C1 — sync aggregates every per-project failure -/

theorem filterMap_flatMap_eq {α β γ : Type} (l : List α) (g : α → List β)
    (h : β → Option γ) :
    (l.flatMap g).filterMap h = l.flatMap (fun a => (g a).filterMap h) := by
  induction l with
  | nil => rfl
  | cons x xs ih => simp [List.flatMap_cons, List.filterMap_append, ih]

theorem flatMap_toList_eq_filterMap {α β : Type} (l : List α) (f : α → Option β) :
    l.flatMap (fun a => (f a).toList) = l.filterMap f := by
  induction l with
  | nil => rfl
  | cons x xs ih =>
    cases hx : f x <;> simp [List.flatMap_cons, List.filterMap_cons, hx, ih]

/-- A worker sends at most one failure: the channel results of project `i`
filter down to exactly its pipeline's failure message, if any. -/
theorem project_results_failure (env : SyncEnv) (mode : DwlMode)
    (lightweight force : Bool) (i : Nat) :
    (project_results env mode lightweight force i).filterMap result_error =
      (project_failure env mode lightweight force i).toList := by
  unfold project_results project_failure
  cases env.init mode i with
  | error e => rfl
  | ok _ =>
    cases env.checkout force lightweight i with
    | error e => rfl
    | ok _ =>
      cases env.execute_actions i with
      | error e => rfl
      | ok _ => rfl

theorem foldl_append_shift (l : List String) (a : String) :
    l.foldl (· ++ ·) a = a ++ l.foldl (· ++ ·) "" := by
  induction l generalizing a with
  | nil => simp
  | cons x xs ih =>
    simp only [List.foldl_cons]
    rw [ih (a ++ x), ih ("" ++ x)]
    simp [String.append_assoc]

theorem foldl_msgs_eq_join (l : List String) (a : String) :
    l.foldl (fun acc msg => acc ++ msg ++ "\n") a =
      a ++ String.join (l.map (· ++ "\n")) := by
  induction l generalizing a with
  | nil => simp [String.join]
  | cons x xs ih =>
    simp only [List.foldl_cons, List.map_cons]
    rw [ih (a ++ x ++ "\n")]
    have : String.join ((x ++ "\n") :: xs.map (· ++ "\n")) =
        (x ++ "\n") ++ String.join (xs.map (· ++ "\n")) := by
      simp only [String.join, List.foldl_cons]
      rw [foldl_append_shift]
      simp
    rw [this]
    simp [String.append_assoc]

/-- The errors `sync` collects are exactly the failure messages of the failed
projects, in manifest order. -/
theorem sync_errors_eq (env : SyncEnv) (n : Nat) (mode : DwlMode)
    (lightweight force : Bool) :
    ((List.range n).flatMap (project_results env mode lightweight force)).filterMap
      result_error = sync_failures env mode lightweight force n := by
  rw [filterMap_flatMap_eq]
  unfold sync_failures
  rw [← flatMap_toList_eq_filterMap]
  congr 1
  funext i
  rw [project_results_failure]

/-- C1: for every manifest size and every combination of the `mode`,
`lightweight`, `quiet` and `force` options, `sync` succeeds exactly when no
project's pipeline stage failed; otherwise it returns one `FailedToSync`
error whose message is the blank-line separator followed by every failed
project's message, each terminated by a newline. -/
theorem c1_sync_aggregation (env : SyncEnv) (n : Nat) (mode : DwlMode)
    (lightweight quiet force : Bool) :
    (ManifestInstance.sync env n mode lightweight quiet force = .ok () ↔
      ∀ i, i < n → project_failure env mode lightweight force i = none) ∧
    (∀ msgs, sync_failures env mode lightweight force n = msgs → msgs ≠ [] →
      ManifestInstance.sync env n mode lightweight quiet force =
        .error (.FailedToSync ("\n\n" ++ String.join (msgs.map (· ++ "\n"))))) := by
  have herr := sync_errors_eq env n mode lightweight force
  constructor
  · constructor
    · intro hok i hi
      simp only [ManifestInstance.sync] at hok
      rw [herr] at hok
      by_cases hnil : sync_failures env mode lightweight force n = []
      · have : project_failure env mode lightweight force i ∈
            (List.range n).map (project_failure env mode lightweight force) := by
          exact List.mem_map_of_mem _ (List.mem_range.2 hi)
        unfold sync_failures at hnil
        rcases hpf : project_failure env mode lightweight force i with _ | v
        · rfl
        · exfalso
          have : v ∈ (List.range n).filterMap (project_failure env mode lightweight force) := by
            exact List.mem_filterMap.2 ⟨i, List.mem_range.2 hi, hpf⟩
          rw [hnil] at this
          exact List.not_mem_nil v this
      · exfalso
        rw [if_neg (by simpa [List.isEmpty_iff] using hnil)] at hok
        exact Except.noConfusion hok
    · intro hall
      simp only [ManifestInstance.sync]
      rw [herr]
      have : sync_failures env mode lightweight force n = [] := by
        unfold sync_failures
        exact List.filterMap_eq_nil.2 fun i hi => hall i (List.mem_range.1 hi)
      rw [this]
      rfl
  · intro msgs hmsgs hne
    simp only [ManifestInstance.sync]
    rw [herr, hmsgs]
    rw [if_neg (by simpa [List.isEmpty_iff] using hne)]
    rw [foldl_msgs_eq_join]

/-! ## C3 — error capture in the progress monitor -/

theorem findIdx_eq_first {α : Type} (p : α → Bool) (l : List α) (i : Nat)
    (hi : i < l.length) (hp : p (l.get ⟨i, hi⟩) = true)
    (hfirst : ∀ j (hj : j < i), p (l.get ⟨j, Nat.lt_trans hj hi⟩) = false) :
    l.findIdx? p = some i := by
  induction l generalizing i with
  | nil => cases hi
  | cons x xs ih =>
    cases i with
    | zero =>
      simp only [List.get] at hp
      simp [List.findIdx?_cons, hp]
    | succ n =>
      have hx : p x = false := hfirst 0 (Nat.succ_pos n)
      have hn : n < xs.length := by simpa using hi
      have hrec : xs.findIdx? p = some n := by
        refine ih n hn (by simpa using hp) ?_
        intro j hj
        have := hfirst (j + 1) (Nat.succ_lt_succ hj)
        simpa using this
      simp [List.findIdx?_cons, hx, hrec]

theorem findIdx_eq_none {α : Type} (p : α → Bool) (l : List α)
    (h : ∀ a ∈ l, p a = false) : l.findIdx? p = none := by
  induction l with
  | nil => rfl
  | cons x xs ih =>
    have hx : p x = false := h x (by simp)
    have := ih fun a ha => h a (by simp [ha])
    simp [List.findIdx?_cons, hx, this]

/-- C3: when the monitored subcommand exits with a non-zero status, the
buffered lines are drained behind the chunks captured while it ran, and the
surfaced error is exactly the concatenation of all captured entries from the
first one containing the substring `fatal` or `error` onward; when no
captured entry contains either token, the generic
"Failed to capture git error message" is surfaced instead. -/
theorem c3_process_command_error_capture (chunks drained : List String) :
    (∀ i (hi : i < (chunks ++ drained).length),
      contains_marker ((chunks ++ drained).get ⟨i, hi⟩) = true →
      (∀ j (hj : j < i),
        contains_marker ((chunks ++ drained).get ⟨j, Nat.lt_trans hj hi⟩) = false) →
      process_command (.ok false) chunks drained =
        .error (String.join ((chunks ++ drained).drop i))) ∧
    ((∀ line ∈ chunks ++ drained, contains_marker line = false) →
      process_command (.ok false) chunks drained =
        .error "Failed to capture git error message") := by
  constructor
  · intro i hi hp hfirst
    have hfind : (chunks ++ drained).findIdx? contains_marker = some i :=
      findIdx_eq_first contains_marker (chunks ++ drained) i hi hp hfirst
    simp only [process_command, Bool.false_eq_true, if_false, hfind]
    rfl
  · intro hall
    have hfind : (chunks ++ drained).findIdx? contains_marker = none :=
      findIdx_eq_none contains_marker (chunks ++ drained) hall
    simp only [process_command, Bool.false_eq_true, if_false, hfind]

/-! ## Parsing: the shape of a normalized action list -/

theorem is_file_action_cases (t : String) (h : Project.is_file_action t = true) :
    t = LINKFILE ∨ t = COPYFILE ∨ t = COPYDIR := by
  unfold Project.is_file_action at h
  simp only [Bool.or_eq_true, decide_eq_true_eq] at h
  tauto

theorem file_action_of_is_file (t src dst : String) :
    is_file_entry (file_action_of t src dst) = true := by
  unfold file_action_of
  split
  · rfl
  · split <;> rfl

theorem file_action_of_ne_delete (t src dst : String) :
    file_action_of t src dst ≠ .DeleteProject := by
  unfold file_action_of
  split
  · exact fun hc => ProjectAction.noConfusion hc
  · split <;> exact fun hc => ProjectAction.noConfusion hc

theorem add_file_action_spec (inst : Project) (t src dst : String)
    (h : Project.is_file_action t = true) :
    inst.add_file_action t src dst =
      { inst with actions := inst.actions ++ [file_action_of t src dst] } := by
  rcases is_file_action_cases t h with ht | ht | ht <;> subst ht <;> rfl

theorem declared_cons_file (a : XNode) (rest : List XNode) (src dest : String)
    (hfa : Project.is_file_action a.tag = true)
    (hsrc : a.attr "src" = some src) (hdest : a.attr "dest" = some dest) :
    declared_file_actions (a :: rest) =
      file_action_of a.tag src dest :: declared_file_actions rest := by
  simp [declared_file_actions, List.filterMap_cons, hfa, hsrc, hdest]

theorem declared_cons_skip (a : XNode) (rest : List XNode)
    (hfa : Project.is_file_action a.tag = false) :
    declared_file_actions (a :: rest) = declared_file_actions rest := by
  simp [declared_file_actions, List.filterMap_cons, hfa]

/-- What one run of the `add_actions` loop does to a project, seen through
the two filtered views of its action list: the file actions grow by the
declared file actions in order, and a single `DeleteProject` is appended the
first time one is declared; the other fields are untouched. -/
theorem add_actions_loop_spec (children : List XNode) :
    ∀ (inst inst' : Project), add_actions_loop inst children = .ok inst' →
    inst'.uri = inst.uri ∧ inst'.name = inst.name ∧ inst'.revision = inst.revision ∧
    inst'.path = inst.path ∧
    inst'.actions.filter is_file_entry =
      inst.actions.filter is_file_entry ++ declared_file_actions children ∧
    inst'.actions.filter (fun a => !is_file_entry a) =
      inst.actions.filter (fun a => !is_file_entry a) ++
        (if ProjectAction.DeleteProject ∉ inst.actions ∧ declares_delete children = true
         then [.DeleteProject] else []) := by
  induction children with
  | nil =>
    intro inst inst' h
    cases h
    simp [declared_file_actions, declares_delete]
  | cons a rest ih =>
    intro inst inst' h
    rw [add_actions_loop] at h
    by_cases hfa : Project.is_file_action a.tag = true
    · rw [if_pos hfa] at h
      rcases hsrc : a.attr "src" with _ | src <;> rw [hsrc] at h
      · cases h
      rcases hdest : a.attr "dest" with _ | dest <;> rw [hdest] at h
      · cases h
      have hspec := add_file_action_spec inst a.tag src dest hfa
      obtain ⟨hu, hn, hr, hp, hfile, hdel⟩ := ih _ _ h
      rw [hspec] at hu hn hr hp hfile hdel
      refine ⟨hu, hn, hr, hp, ?_, ?_⟩
      · rw [hfile]
        simp only [List.filter_append, List.filter_cons, file_action_of_is_file,
          List.filter_nil, if_true]
        rw [declared_cons_file a rest src dest hfa hsrc hdest]
        simp
      · rw [hdel]
        have hmem : (ProjectAction.DeleteProject ∈
            inst.actions ++ [file_action_of a.tag src dest]) ↔
            ProjectAction.DeleteProject ∈ inst.actions := by
          simp [List.mem_append, (file_action_of_ne_delete a.tag src dest).symm]
        have hdd : declares_delete (a :: rest) = declares_delete rest := by
          have : Project.is_delete_project a.tag = false := by
            rcases is_file_action_cases a.tag hfa with ht | ht | ht <;>
              rw [Project.is_delete_project, ht] <;> decide
          simp [declares_delete, List.any_cons, this]
        rw [hdd]
        have hfilter : (inst.actions ++ [file_action_of a.tag src dest]).filter
            (fun a => !is_file_entry a) =
            inst.actions.filter (fun a => !is_file_entry a) := by
          simp [List.filter_append, file_action_of_is_file]
        rw [hfilter]
        congr 1
        by_cases hin : ProjectAction.DeleteProject ∈ inst.actions
        · rw [if_neg (by simp [hin]), if_neg (by simp [hin])]
        · by_cases hdecl : declares_delete rest = true
          · rw [if_pos ⟨by simpa [hmem] using hin, hdecl⟩, if_pos ⟨hin, hdecl⟩]
          · rw [if_neg (by simp [hdecl]), if_neg (by simp [hdecl])]
    · rw [if_neg hfa] at h
      have hfa' : Project.is_file_action a.tag = false := by
        simpa using hfa
      by_cases hdp : Project.is_delete_project a.tag = true
      · rw [if_pos hdp] at h
        have hdd : declares_delete (a :: rest) = true := by
          simp [declares_delete, List.any_cons, hdp]
        by_cases hin : ProjectAction.DeleteProject ∈ inst.actions
        · have hid : inst.add_delete_project = inst := by
            rw [Project.add_delete_project, if_pos hin]
          rw [hid] at h
          obtain ⟨hu, hn, hr, hp, hfile, hdel⟩ := ih _ _ h
          refine ⟨hu, hn, hr, hp, ?_, ?_⟩
          · rw [hfile, declared_cons_skip a rest hfa']
          · rw [hdel]
            rw [if_neg (by simp [hin]), if_neg (by simp [hin])]
        · have hadd : inst.add_delete_project =
              { inst with actions := inst.actions ++ [.DeleteProject] } := by
            rw [Project.add_delete_project, if_neg hin]
          rw [hadd] at h
          obtain ⟨hu, hn, hr, hp, hfile, hdel⟩ := ih _ _ h
          refine ⟨hu, hn, hr, hp, ?_, ?_⟩
          · rw [hfile, declared_cons_skip a rest hfa']
            simp [List.filter_append, is_file_entry]
          · rw [hdel]
            rw [if_neg (by simp)]
            rw [if_pos ⟨hin, hdd⟩]
            simp [List.filter_append, is_file_entry]
      · rw [if_neg hdp] at h
        have hdp' : Project.is_delete_project a.tag = false := by
          simpa using hdp
        obtain ⟨hu, hn, hr, hp, hfile, hdel⟩ := ih _ _ h
        have hdd : declares_delete (a :: rest) = declares_delete rest := by
          simp [declares_delete, List.any_cons, hdp']
        exact ⟨hu, hn, hr, hp, by rw [hfile, declared_cons_skip a rest hfa'],
          by rw [hdel, hdd]⟩

/-- `add_actions` on a freshly constructed project: the fields survive and
the action list is the declared file actions in order, followed by one
`DeleteProject` exactly when the element declares one. -/
theorem add_actions_empty_spec (inst : Project) (node : XNode) (res : Project)
    (h0 : inst.actions = []) (h : add_actions inst node = .ok res) :
    res.uri = inst.uri ∧ res.name = inst.name ∧ res.revision = inst.revision ∧
    res.path = inst.path ∧
    res.actions = declared_file_actions node.children ++
      (if declares_delete node.children = true then [.DeleteProject] else []) := by
  rw [add_actions] at h
  rcases hloop : add_actions_loop inst node.children with e | inst2 <;> rw [hloop] at h
  · cases h
  cases h
  obtain ⟨hu, hn, hr, hp, hfile, hdel⟩ := add_actions_loop_spec node.children inst inst2 hloop
  refine ⟨hu, hn, hr, hp, ?_⟩
  show (Project.sort_actions inst2).actions = _
  rw [Project.sort_actions]
  show stable_sort_actions inst2.actions = _
  rw [stable_sort_actions_eq, hfile, hdel, h0]
  simp only [List.filter_nil, List.nil_append]
  congr 1
  by_cases hdd : declares_delete node.children = true
  · rw [if_pos ⟨by simp [h0], hdd⟩, if_pos hdd]
  · rw [if_neg (by simp [hdd]), if_neg hdd]

theorem declared_all_file (children : List XNode) :
    ∀ a ∈ declared_file_actions children, is_file_entry a = true := by
  intro a ha
  rw [declared_file_actions] at ha
  obtain ⟨x, -, hx⟩ := List.mem_filterMap.1 ha
  by_cases hfa : Project.is_file_action x.tag = true
  · rw [if_pos hfa] at hx
    rcases hsrc : x.attr "src" with _ | src <;> rw [hsrc] at hx
    · cases hx
    · rcases hdest : x.attr "dest" with _ | dest <;> rw [hdest] at hx
      · cases hx
      · cases hx
        exact file_action_of_is_file _ _ _
  · rw [if_neg hfa] at hx
    cases hx

/-! ## C6 — the DeleteProject ordering invariant -/

/-- C6: for every project produced by parsing (a fresh project normalized by
`add_actions`), the action list holds at most one `DeleteProject`; when one
is present it is the last element; and the file actions appear exactly as
declared, in their original relative order. -/
theorem c6_delete_project_invariant (inst : Project) (node : XNode) (res : Project)
    (h0 : inst.actions = []) (h : add_actions inst node = .ok res) :
    res.actions.count .DeleteProject ≤ 1 ∧
    (ProjectAction.DeleteProject ∈ res.actions →
      res.actions.getLast? = some .DeleteProject) ∧
    res.actions.filter is_file_entry = declared_file_actions node.children := by
  obtain ⟨-, -, -, -, hact⟩ := add_actions_empty_spec inst node res h0 h
  have hcount0 : (declared_file_actions node.children).count
      ProjectAction.DeleteProject = 0 := by
    rw [List.count_eq_zero]
    intro hmem
    have := declared_all_file node.children _ hmem
    simp [is_file_entry] at this
  refine ⟨?_, ?_, ?_⟩
  · rw [hact, List.count_append, hcount0]
    by_cases hdd : declares_delete node.children = true
    · rw [if_pos hdd]
      simp
    · rw [if_neg hdd]
      simp
  · intro hmem
    rw [hact] at hmem ⊢
    rcases List.mem_append.1 hmem with hin | hin
    · exfalso
      have := declared_all_file node.children _ hin
      simp [is_file_entry] at this
    · by_cases hdd : declares_delete node.children = true
      · rw [if_pos hdd]
        exact List.getLast?_concat _
      · rw [if_neg hdd] at hin
        cases hin
  · rw [hact, List.filter_append]
    have h1 : (declared_file_actions node.children).filter is_file_entry =
        declared_file_actions node.children :=
      List.filter_eq_self.2 (declared_all_file node.children)
    have h2 : (if declares_delete node.children = true
        then [ProjectAction.DeleteProject] else []).filter is_file_entry = [] := by
      by_cases hdd : declares_delete node.children = true
      · rw [if_pos hdd]
        rfl
      · rw [if_neg hdd]
        rfl
    rw [h1, h2, List.append_nil]

/-! ## C9 — `get_commit_id` error behavior -/

/-- C9: `get_commit_id` returns `FailedToGetCommitId` exactly when the
revision-query process could not be executed; whenever the process ran it
returns `Ok` with the process's standard output stripped of every `\n` and
`\r` character, the exit status never being consulted — in particular a
failed `git rev-parse` with empty output yields `Ok ""`, not an error. -/
theorem c9_get_commit_id (output : Except String ProcessOutput) (project : Project) :
    (∀ e, output = .error e →
      GitVersionControl.get_commit_id output project =
        .error (.FailedToGetCommitId (project.path ++ "\n" ++ e ++ "\n"))) ∧
    (∀ m, GitVersionControl.get_commit_id output project = .error m →
      ∃ e, output = .error e) ∧
    (∀ o, output = .ok o →
      GitVersionControl.get_commit_id output project =
        .ok (String.mk (o.stdout.data.filter (fun c => !(c = '\n' || c = '\r'))))) ∧
    GitVersionControl.get_commit_id (.ok ⟨false, "\n"⟩) project = .ok "" := by
  refine ⟨?_, ?_, ?_, ?_⟩
  · intro e he; subst he; rfl
  · intro m hm
    cases output with
    | ok o => simp [GitVersionControl.get_commit_id] at hm
    | error e => exact ⟨e, rfl⟩
  · intro o ho; subst ho; rfl
  · rfl

/-! ## C4 — initialization on an existing destination -/

/-- C4 counterexample: for a project whose destination directory already
exists and is non-empty, the initialize step is not skipped — it still runs
`git init` and rewrites the `origin` remote URL on that directory. -/
theorem c4_init_not_skipped :
    (GitVersionControl.init c4_env c4_project .SSH).2 ≠ [] ∧
    GitCall.git_init ∈ (GitVersionControl.init c4_env c4_project .SSH).2 ∧
    GitCall.remote_set_url "git@github.com:demo/repo.git" ∈
      (GitVersionControl.init c4_env c4_project .SSH).2 ∧
    (GitVersionControl.init c4_env c4_project .SSH).1 = .ok () := by
  decide

/-- C4 (amended): when the destination directory already exists — empty or
not — `init` does not create it and performs no clone; it re-runs
`git init --quiet` and then sets (or adds) the `origin` remote URL, and
returns success whenever those subcommands succeed, so repeated syncs never
re-clone. -/
theorem c4_init_reinitializes (env : InitEnv) (project : Project) (mode : DwlMode)
    (b : Bool) (hex : env.path_exists = true) (hinit : env.git_init = .ok true)
    (hget : env.get_url = .ok b) (hset : env.set_url = .ok true)
    (hadd : env.add_url = .ok true) :
    GitVersionControl.init env project mode =
      (.ok (), [.git_init, .remote_get_url,
        if b then .remote_set_url (init_url project mode)
        else .remote_add (init_url project mode)]) ∧
    GitCall.create_dir ∉ (GitVersionControl.init env project mode).2 := by
  have : GitVersionControl.init env project mode =
      (.ok (), [.git_init, .remote_get_url,
        if b then .remote_set_url (init_url project mode)
        else .remote_add (init_url project mode)]) := by
    cases b with
    | true =>
      simp [GitVersionControl.init, init_repository, init_origin, init_url,
        hex, hinit, hget, hset]
    | false =>
      simp [GitVersionControl.init, init_repository, init_origin, init_url,
        hex, hinit, hget, hadd]
  refine ⟨this, ?_⟩
  rw [this]
  cases b <;> simp

/-- C4 witness: the amended statement evaluated on the concrete environment
of the counterexample. -/
theorem c4_init_reinitializes_witness :
    GitVersionControl.init c4_env c4_project .SSH =
      (.ok (), [.git_init, .remote_get_url,
        .remote_set_url "git@github.com:demo/repo.git"]) ∧
    GitCall.create_dir ∉ (GitVersionControl.init c4_env c4_project .SSH).2 := by
  have h := c4_init_reinitializes c4_env c4_project .SSH true rfl rfl rfl rfl rfl
  simpa [init_url, c4_project, Project.get_uri_ssh, Project.new] using h

/-- C6 witness: the invariant evaluated on a project element mixing a
duplicated `delete_project` among file actions and an unknown element. -/
theorem c6_delete_project_invariant_witness :
    c6_res.actions.count .DeleteProject ≤ 1 ∧
    (ProjectAction.DeleteProject ∈ c6_res.actions →
      c6_res.actions.getLast? = some .DeleteProject) ∧
    c6_res.actions.filter is_file_entry = declared_file_actions c6_node.children :=
  c6_delete_project_invariant c6_inst c6_node c6_res rfl (by decide)

/-! ## C8 — default revision/uri propagation -/

theorem parse_projects_spec (dflt : DefaultParameters) :
    ∀ (ns : List XNode) (ps : List Project), parse_projects dflt ns = .ok ps →
      ps.length = ns.length ∧
      ∀ i (hn : i < ns.length) (hp : i < ps.length),
        parse_project dflt (ns.get ⟨i, hn⟩) = .ok (ps.get ⟨i, hp⟩) := by
  intro ns
  induction ns with
  | nil =>
    intro ps h
    cases h
    exact ⟨rfl, fun i hn _ => absurd hn (Nat.not_lt_zero i)⟩
  | cons x xs ih =>
    intro ps h
    rw [parse_projects] at h
    rcases hx : parse_project dflt x with e | p <;> rw [hx] at h
    · cases h
    rcases hrest : parse_projects dflt xs with e | ps' <;> rw [hrest] at h
    · cases h
    cases h
    obtain ⟨hlen, hidx⟩ := ih ps' hrest
    refine ⟨by simp [hlen], ?_⟩
    intro i hn hp
    cases i with
    | zero => simpa using hx
    | succ n =>
      have hn' : n < xs.length := by simpa using hn
      have hp' : n < ps'.length := by simpa using hp
      simpa using hidx n hn' hp'

theorem parse_project_fields (dflt : DefaultParameters) (node : XNode) (p : Project)
    (h : parse_project dflt node = .ok p) :
    p.revision = get_revision node dflt ∧ p.uri = get_uri node dflt := by
  rw [parse_project] at h
  rcases hname : get_name node with e | name <;> rw [hname] at h
  · cases h
  rcases hpath : get_path node with e | path <;> rw [hpath] at h
  · cases h
  obtain ⟨hu, -, hr, -, -⟩ := add_actions_empty_spec _ node p rfl h
  exact ⟨by simpa [Project.new] using hr, by simpa [Project.new] using hu⟩

theorem default_parameters_revision (doc : XNode) :
    (DefaultParameters.new doc).revision =
      match doc.descendants.find? (fun n => n.tag = "default") with
      | some d => (d.attr "revision").getD "main"
      | none => "main" := by
  simp only [DefaultParameters.new]
  rcases hfind : doc.descendants.find? (fun n => n.tag = "default") with _ | d <;>
    simp [hfind, Option.bind, DEFAULT_REVISION]

theorem default_parameters_uri (doc : XNode) :
    (DefaultParameters.new doc).uri =
      match doc.descendants.find? (fun n => n.tag = "default") with
      | some d => (d.attr "uri").getD "github.com"
      | none => "github.com" := by
  simp only [DefaultParameters.new]
  rcases hfind : doc.descendants.find? (fun n => n.tag = "default") with _ | d <;>
    simp [hfind, Option.bind, DEFAULT_HOST]

/-- C8: a parsed project omitting the `revision` (resp. `uri`) attribute
resolves it to the first `<default>` element's value for that attribute when
one is present, and otherwise to the fixed fallback constants: branch
`"main"` and host `"github.com"`. -/
theorem c8_default_resolution (doc : XNode) (ps : List Project) (i : Nat)
    (h : XmlParser.parse_doc doc = .ok ps)
    (hn : i < (project_nodes doc).length) (hp : i < ps.length) :
    (((project_nodes doc).get ⟨i, hn⟩).attr "revision" = none →
      (ps.get ⟨i, hp⟩).revision =
        match doc.descendants.find? (fun n => n.tag = "default") with
        | some d => (d.attr "revision").getD "main"
        | none => "main") ∧
    (((project_nodes doc).get ⟨i, hn⟩).attr "uri" = none →
      (ps.get ⟨i, hp⟩).uri =
        match doc.descendants.find? (fun n => n.tag = "default") with
        | some d => (d.attr "uri").getD "github.com"
        | none => "github.com") := by
  rw [XmlParser.parse_doc] at h
  obtain ⟨-, hidx⟩ := parse_projects_spec (DefaultParameters.new doc) (project_nodes doc) ps h
  obtain ⟨hr, hu⟩ := parse_project_fields _ _ _ (hidx i hn hp)
  constructor
  · intro hnone
    rw [hr, get_revision, hnone, Option.getD_none]
    exact default_parameters_revision doc
  · intro hnone
    rw [hu, get_uri, hnone, Option.getD_none]
    exact default_parameters_uri doc

/-- C8 witness: the defaults resolved on a document carrying a `<default>`
element, evaluated at its only project. -/
theorem c8_default_resolution_witness :
    ((((project_nodes c8_doc).get ⟨0, by decide⟩).attr "revision" = none →
      (([c8_parsed] : List Project).get ⟨0, by decide⟩).revision =
        match c8_doc.descendants.find? (fun n => n.tag = "default") with
        | some d => (d.attr "revision").getD "main"
        | none => "main") ∧
    ((((project_nodes c8_doc).get ⟨0, by decide⟩).attr "uri" = none →
      (([c8_parsed] : List Project).get ⟨0, by decide⟩).uri =
        match c8_doc.descendants.find? (fun n => n.tag = "default") with
        | some d => (d.attr "uri").getD "github.com"
        | none => "github.com"))) :=
  c8_default_resolution c8_doc [c8_parsed] 0 (by decide) (by decide) (by decide)

/-! ## C10 — unknown actions are ignored, malformed file actions fail -/

/-- C10: an action element whose tag is none of `linkfile`, `copyfile`,
`copydir`, `delete_project` is silently skipped — the parse of the project's
children is the same as if the element were absent, so the unknown action
contributes nothing and raises no error; a recognized file-action element
missing `src` or `dest`, by contrast, aborts the parse with the
missing-src-or-dest `FailedToParseManifest` error. -/
theorem c10_unknown_action_ignored (a : XNode) (pre post : List XNode) :
    (∀ inst : Project, Project.is_file_action a.tag = false →
      Project.is_delete_project a.tag = false →
      add_actions_loop inst (pre ++ a :: post) = add_actions_loop inst (pre ++ post)) ∧
    (∀ inst inst2 : Project, Project.is_file_action a.tag = true →
      (a.attr "src" = none ∨ a.attr "dest" = none) →
      add_actions_loop inst pre = .ok inst2 →
      add_actions_loop inst (pre ++ a :: post) =
        .error (.FailedToParseManifest "<[linkfile or copyfile] /> is missing src or dest")) := by
  constructor
  · intro inst hfa hdp
    induction pre generalizing inst with
    | nil =>
      simp only [List.nil_append]
      rw [add_actions_loop, if_neg (by simp [hfa]), if_neg (by simp [hdp])]
    | cons x xs ih =>
      simp only [List.cons_append]
      rw [add_actions_loop, add_actions_loop]
      by_cases hxfa : Project.is_file_action x.tag = true
      · rw [if_pos hxfa, if_pos hxfa]
        rcases x.attr "src" with _ | src
        · rfl
        rcases x.attr "dest" with _ | dest
        · rfl
        exact ih _
      · rw [if_neg hxfa, if_neg hxfa]
        by_cases hxdp : Project.is_delete_project x.tag = true
        · rw [if_pos hxdp, if_pos hxdp]
          exact ih _
        · rw [if_neg hxdp, if_neg hxdp]
          exact ih _
  · intro inst inst2 hfa hmiss hpre
    induction pre generalizing inst with
    | nil =>
      simp only [List.nil_append]
      rw [add_actions_loop, if_pos hfa]
      rcases hmiss with hs | hd
      · rw [hs]
      · rcases a.attr "src" with _ | src
        · rfl
        · rw [hd]
    | cons x xs ih =>
      rw [add_actions_loop] at hpre
      simp only [List.cons_append]
      rw [add_actions_loop]
      by_cases hxfa : Project.is_file_action x.tag = true
      · rw [if_pos hxfa] at hpre ⊢
        cases hsx : x.attr "src" with
        | none => rw [hsx] at hpre
        | some src =>
          rw [hsx] at hpre
          cases hdx : x.attr "dest" with
          | none => rw [hdx] at hpre
          | some dest =>
            rw [hdx] at hpre
            exact ih _ hpre
      · rw [if_neg hxfa] at hpre ⊢
        by_cases hxdp : Project.is_delete_project x.tag = true
        · rw [if_pos hxdp] at hpre ⊢
          exact ih _ hpre
        · rw [if_neg hxdp] at hpre ⊢
          exact ih _ hpre

/-! ## C7 — pin preserves everything but the revision -/

theorem pin_loop_spec (get_commit : Project → Except ManifestError String) :
    ∀ (l res : List Project), pin_loop get_commit l = .ok res →
      res.length = l.length ∧
      ∀ i (hl : i < l.length) (hr : i < res.length),
        ∃ c, get_commit (l.get ⟨i, hl⟩) = .ok c ∧
          res.get ⟨i, hr⟩ = (l.get ⟨i, hl⟩).pin c := by
  intro l
  induction l with
  | nil =>
    intro res h
    cases h
    exact ⟨rfl, fun i hl _ => absurd hl (Nat.not_lt_zero i)⟩
  | cons x xs ih =>
    intro res h
    rw [pin_loop] at h
    rcases hx : get_commit x with e | c <;> rw [hx] at h
    · cases h
    rcases hrest : pin_loop get_commit xs with e | res' <;> rw [hrest] at h
    · cases h
    cases h
    obtain ⟨hlen, hidx⟩ := ih res' hrest
    refine ⟨by simp [hlen], ?_⟩
    intro i hl hr
    cases i with
    | zero => exact ⟨c, hx, rfl⟩
    | succ n =>
      have hl' : n < xs.length := by simpa using hl
      have hr' : n < res'.length := by simpa using hr
      simpa using hidx n hl' hr'

/-- C7: a successful `pin` yields a manifest with exactly one project per
input project, in the same order, each a fresh `Project` whose revision is
the commit id `getCurrentRevision` returned for the corresponding input
project and whose uri, name, path and action list are copied verbatim; the
filename is kept and the new text is the composition of the pinned projects,
the receiving manifest being read but never modified. -/
theorem c7_pin_preserves (get_commit : Project → Except ManifestError String)
    (m m' : ManifestInstance) (h : m.pin get_commit = .ok m') :
    m'.projects.length = m.projects.length ∧
    (∀ i (hm : i < m.projects.length) (hm' : i < m'.projects.length),
      ∃ c, get_commit (m.projects.get ⟨i, hm⟩) = .ok c ∧
        m'.projects.get ⟨i, hm'⟩ =
          { uri := (m.projects.get ⟨i, hm⟩).uri
            name := (m.projects.get ⟨i, hm⟩).name
            revision := c
            path := (m.projects.get ⟨i, hm⟩).path
            actions := (m.projects.get ⟨i, hm⟩).actions }) ∧
    m'.filename = m.filename ∧
    XmlParser.compose m'.projects = .ok m'.file := by
  rw [ManifestInstance.pin] at h
  rcases hloop : pin_loop get_commit m.projects with e | projects <;> rw [hloop] at h
  · cases h
  dsimp only at h
  rcases hcomp : XmlParser.compose projects with e | file <;> rw [hcomp] at h
  · cases h
  dsimp only at h
  cases h
  obtain ⟨hlen, hidx⟩ := pin_loop_spec get_commit m.projects projects hloop
  exact ⟨hlen, fun i hm hm' => hidx i hm hm', rfl, hcomp⟩

/-- C7 witness: `pin` on a concrete two-project manifest with a constant
commit oracle. -/
theorem c7_pin_preserves_witness :
    c7_pinned.projects.length = c7_manifest.projects.length ∧
    (∀ i (hm : i < c7_manifest.projects.length)
        (hm' : i < c7_pinned.projects.length),
      ∃ c, c7_get_commit (c7_manifest.projects.get ⟨i, hm⟩) = .ok c ∧
        c7_pinned.projects.get ⟨i, hm'⟩ =
          { uri := (c7_manifest.projects.get ⟨i, hm⟩).uri
            name := (c7_manifest.projects.get ⟨i, hm⟩).name
            revision := c
            path := (c7_manifest.projects.get ⟨i, hm⟩).path
            actions := (c7_manifest.projects.get ⟨i, hm⟩).actions }) ∧
    c7_pinned.filename = c7_manifest.filename ∧
    XmlParser.compose c7_pinned.projects = .ok c7_pinned.file :=
  c7_pin_preserves c7_get_commit c7_manifest c7_pinned (by decide)

/-! ## C5 — the parse/compose round trip loses delete actions -/

/-- C5: `c5_input` is canonically formatted — it is byte-for-byte the
composer's own serialization of a project carrying a delete action — yet
`compose (parse c5_input)` is not `c5_input`: `parse` only recognizes the
tag `delete_project` while `compose` emits `<delete-project/>`, so the
delete action is dropped on the way through and the round trip is not
byte-identical. -/
theorem c5_roundtrip_loses_delete :
    XmlParser.compose [c5_source_project] = .ok c5_input ∧
    XmlParser.parse c5_input = .ok [c5_parsed] ∧
    c5_parsed.actions = [] ∧
    XmlParser.compose [c5_parsed] = .ok c5_recomposed ∧
    c5_recomposed ≠ c5_input := by
  refine ⟨by decide, by decide, rfl, by decide, by decide⟩

end Colligo
